import Mathlib

/-!
Shallow embedding of `src/basic.py`, a word-count filter:

```python
counts = {}
for line in sys.stdin:
    words = line.lower().split()
    for word in words:
        counts[word] = counts.get(word, 0) + 1

pairs = sorted(counts.items(), key=lambda kv: kv[1], reverse=True)
for word, count in pairs:
    print(word, count)
```

The Python dict (3.7+) preserves insertion order, so `counts` is modelled
as an association list in which a new key is appended at the end and an
existing key is updated in place.  `sorted(..., reverse=True)` is a stable
sort by the count, descending; it is modelled by `List.insertionSort` with
the reflexive descending relation, which is likewise stable.  String
operations are modelled structurally over the character list so that all
definitions reduce in the kernel.
-/

namespace WordCount

/-- Model of Python `str.lower()` (ASCII case folding on each character). -/
def pyLower (s : String) : String := String.mk (s.data.map Char.toLower)

/-- Helper for `pySplit`: scan the characters, accumulating the current
word in reverse; whitespace ends a word and empty fragments are dropped. -/
def splitWSAux : List Char → List Char → List String
  | cur, [] => if cur.isEmpty then [] else [String.mk cur.reverse]
  | cur, c :: rest =>
    if c.isWhitespace then
      if cur.isEmpty then splitWSAux [] rest
      else String.mk cur.reverse :: splitWSAux [] rest
    else splitWSAux (c :: cur) rest

/-- Model of Python `str.split()` with no argument: split on runs of
whitespace, discarding empty fragments. -/
def pySplit (s : String) : List String := splitWSAux [] s.data

/-- Helper for `pyLines`: split at `\n`, keeping the terminator on each
line, as Python file iteration does; a final unterminated line is kept. -/
def pyLinesAux : List Char → List Char → List String
  | cur, [] => if cur.isEmpty then [] else [String.mk cur.reverse]
  | cur, c :: rest =>
    if c = '\n' then String.mk (c :: cur).reverse :: pyLinesAux [] rest
    else pyLinesAux (c :: cur) rest

/-- Model of `for line in sys.stdin`: the lines of the input text. -/
def pyLines (s : String) : List String := pyLinesAux [] s.data

/-- Line 5 of the source: `words = line.lower().split()`. -/
def tokenizeLine (line : String) : List String := pySplit (pyLower line)

/-- The whole lowercased token stream of the input, line by line. -/
def tokens (lines : List String) : List String := lines.flatMap tokenizeLine

/-- Line 7 of the source: `counts[word] = counts.get(word, 0) + 1` on an
insertion-ordered dict: update the first matching key in place, append a
new key at the end with count 1. -/
def bump : List (String × Nat) → String → List (String × Nat)
  | [], w => [(w, 1)]
  | (k, v) :: rest, w => if k = w then (k, v + 1) :: rest else (k, v) :: bump rest w

/-- Lines 3-7 of the source: fold every token of every line into the table. -/
def counts (lines : List String) : List (String × Nat) :=
  lines.foldl (fun acc line => (tokenizeLine line).foldl bump acc) []

/-- The sort relation of line 9: `key=lambda kv: kv[1], reverse=True`,
i.e. `a` may precede `b` when the count of `a` is at least the count of `b`. -/
def sortKey (a b : String × Nat) : Prop := b.2 ≤ a.2

instance : DecidableRel sortKey := fun a b => Nat.decLe b.2 a.2

instance : IsTotal (String × Nat) sortKey := ⟨fun a b => Nat.le_total b.2 a.2⟩

instance : IsTrans (String × Nat) sortKey := ⟨fun _ _ _ h₁ h₂ => Nat.le_trans h₂ h₁⟩

/-- Line 9 of the source: `pairs = sorted(counts.items(), key=..., reverse=True)`,
a stable sort of the table by count, descending. -/
def pairs (lines : List String) : List (String × Nat) :=
  List.insertionSort sortKey (counts lines)

/-- Lines 10-11 of the source: `print(word, count)` emits one line per pair,
the word, one space, the count. -/
def outputLines (lines : List String) : List String :=
  (pairs lines).map (fun kv => kv.1 ++ " " ++ toString kv.2)

/-- The program: stdin text to the list of stdout lines. -/
def runProgram (input : String) : List String := outputLines (pyLines input)

/-- The count stored for `w` in the table (`0` when absent), reading the
first matching key. -/
def lookupCount : List (String × Nat) → String → Nat
  | [], _ => 0
  | (k, v) :: rest, w => if k = w then v else lookupCount rest w

/-- The distinct tokens of `ts` in order of first occurrence. -/
def firstSeen (ts : List String) : List String :=
  ts.foldl (fun ks w => if w ∈ ks then ks else ks ++ [w]) []

/-! ### Properties of the table update `bump` -/

theorem lookupCount_bump (acc : List (String × Nat)) (w u : String) :
    lookupCount (bump acc w) u = lookupCount acc u + (if u = w then 1 else 0) := by
  induction acc with
  | nil =>
    by_cases h : u = w
    · simp [bump, lookupCount, h]
    · have h' : ¬w = u := fun h'' => h h''.symm
      simp [bump, lookupCount, h, h']
  | cons kv rest ih =>
    obtain ⟨k, v⟩ := kv
    by_cases hk : k = w
    · by_cases hu : u = w
      · simp [bump, lookupCount, hk, hu, hk.trans hu.symm]
      · have h1 : ¬w = u := fun h'' => hu h''.symm
        have h2 : ¬k = u := fun h'' => hu (h''.symm.trans hk)
        simp [bump, lookupCount, hk, hu, h1, h2]
    · by_cases hku : k = u
      · have huw : ¬u = w := fun h' => hk (hku.trans h')
        simp [bump, lookupCount, hk, hku, huw]
      · simp [bump, lookupCount, hk, hku, ih]

theorem lookupCount_foldl (ws : List String) (acc : List (String × Nat)) (u : String) :
    lookupCount (ws.foldl bump acc) u = lookupCount acc u + ws.count u := by
  induction ws generalizing acc with
  | nil => simp
  | cons w ws ih =>
    by_cases h : u = w
    · subst h
      simp [List.foldl_cons, ih, lookupCount_bump, List.count_cons_self]
      try omega
    · simp [List.foldl_cons, ih, lookupCount_bump, List.count_cons_of_ne h, h]
      try omega

theorem map_fst_bump (acc : List (String × Nat)) (w : String) :
    (bump acc w).map Prod.fst =
      if w ∈ acc.map Prod.fst then acc.map Prod.fst else acc.map Prod.fst ++ [w] := by
  induction acc with
  | nil => simp [bump]
  | cons kv rest ih =>
    obtain ⟨k, v⟩ := kv
    by_cases h : k = w
    · simp [bump, h]
    · have h' : ¬w = k := fun h'' => h h''.symm
      by_cases h2 : w ∈ rest.map Prod.fst <;> simp [bump, h, h', h2, ih]

theorem mem_keys_bump (acc : List (String × Nat)) (w u : String) :
    u ∈ (bump acc w).map Prod.fst ↔ u ∈ acc.map Prod.fst ∨ u = w := by
  rw [map_fst_bump]
  by_cases h : w ∈ acc.map Prod.fst
  · simp only [if_pos h]
    constructor
    · exact Or.inl
    · rintro (hu | rfl)
      · exact hu
      · exact h
  · simp [h]

theorem nodup_keys_bump {acc : List (String × Nat)} (w : String)
    (h : (acc.map Prod.fst).Nodup) : ((bump acc w).map Prod.fst).Nodup := by
  rw [map_fst_bump]
  by_cases hw : w ∈ acc.map Prod.fst
  · simpa [hw] using h
  · rw [if_neg hw]
    exact (List.nodup_middle.mpr (by simpa using List.Nodup.cons hw h))

theorem nodup_keys_foldl (ws : List String) (acc : List (String × Nat))
    (h : (acc.map Prod.fst).Nodup) : ((ws.foldl bump acc).map Prod.fst).Nodup := by
  induction ws generalizing acc with
  | nil => exact h
  | cons w ws ih => exact ih _ (nodup_keys_bump w h)

theorem mem_keys_foldl (ws : List String) (acc : List (String × Nat)) (u : String) :
    u ∈ (ws.foldl bump acc).map Prod.fst ↔ u ∈ acc.map Prod.fst ∨ u ∈ ws := by
  induction ws generalizing acc with
  | nil => simp
  | cons w ws ih =>
    rw [List.foldl_cons, ih, mem_keys_bump]
    constructor
    · rintro ((h | h) | h)
      · exact Or.inl h
      · exact Or.inr (by simp [h])
      · exact Or.inr (List.mem_cons_of_mem _ h)
    · rintro (h | h)
      · exact Or.inl (Or.inl h)
      · rcases List.mem_cons.mp h with h | h
        · exact Or.inl (Or.inr h)
        · exact Or.inr h

theorem sum_snd_bump (acc : List (String × Nat)) (w : String) :
    ((bump acc w).map Prod.snd).sum = ((acc.map Prod.snd).sum) + 1 := by
  induction acc with
  | nil => simp [bump]
  | cons kv rest ih =>
    obtain ⟨k, v⟩ := kv
    by_cases h : k = w <;> simp [bump, h, ih] <;> omega

theorem sum_snd_foldl (ws : List String) (acc : List (String × Nat)) :
    ((ws.foldl bump acc).map Prod.snd).sum = ((acc.map Prod.snd).sum) + ws.length := by
  induction ws generalizing acc with
  | nil => simp
  | cons w ws ih => simp [List.foldl_cons, ih, sum_snd_bump]; omega

theorem pos_of_mem_bump {acc : List (String × Nat)} {w : String}
    (hacc : ∀ kv ∈ acc, 1 ≤ kv.2) : ∀ kv ∈ bump acc w, 1 ≤ kv.2 := by
  induction acc with
  | nil =>
    intro kv hkv
    simp [bump] at hkv
    simp [hkv]
  | cons p rest ih =>
    obtain ⟨k, v⟩ := p
    intro kv hkv
    by_cases h : k = w
    · simp [bump, h] at hkv
      rcases hkv with h' | h'
      · simp [h']
      · exact hacc kv (List.mem_cons_of_mem _ h')
    · simp only [bump, if_neg h] at hkv
      rcases List.mem_cons.mp hkv with h' | h'
      · exact h' ▸ hacc (k, v) (List.mem_cons_self _ _)
      · exact ih (fun q hq => hacc q (List.mem_cons_of_mem _ hq)) kv h'

theorem pos_of_mem_foldl (ws : List String) (acc : List (String × Nat))
    (hacc : ∀ kv ∈ acc, 1 ≤ kv.2) : ∀ kv ∈ ws.foldl bump acc, 1 ≤ kv.2 := by
  induction ws generalizing acc with
  | nil => exact hacc
  | cons w ws ih => exact ih _ (pos_of_mem_bump hacc)

theorem lookupCount_of_mem :
    ∀ {acc : List (String × Nat)}, ((acc.map Prod.fst).Nodup) →
      ∀ {w : String} {c : Nat}, (w, c) ∈ acc → c = lookupCount acc w := by
  intro acc
  induction acc with
  | nil => intro _ w c h; simp at h
  | cons kv rest ih =>
    obtain ⟨k, v⟩ := kv
    intro hnd w c hm
    simp only [List.map_cons, List.nodup_cons] at hnd
    rcases List.mem_cons.mp hm with h | h
    · rw [Prod.mk.injEq] at h
      obtain ⟨rfl, rfl⟩ := h
      simp [lookupCount]
    · have hk : ¬k = w := by
        rintro rfl
        exact hnd.1 (List.mem_map_of_mem Prod.fst h)
      simp only [lookupCount, if_neg hk]
      exact ih hnd.2 h

/-! ### The per-line fold equals the fold over the whole token stream -/

theorem foldl_lines_eq (lines : List String) (acc : List (String × Nat)) :
    lines.foldl (fun a line => (tokenizeLine line).foldl bump a) acc =
      (lines.flatMap tokenizeLine).foldl bump acc := by
  induction lines generalizing acc with
  | nil => rfl
  | cons l ls ih => simp [List.foldl_cons, List.flatMap_cons, List.foldl_append, ih]

theorem counts_eq_foldl (lines : List String) :
    counts lines = (tokens lines).foldl bump [] :=
  foldl_lines_eq lines []

/-! ### Stability of the sort: filtering at a fixed count commutes with sorting -/

theorem filter_orderedInsert_of_eq (c : Nat) (x : String × Nat) (hx : x.2 = c) :
    ∀ l : List (String × Nat),
      (List.orderedInsert sortKey x l).filter (fun kv => decide (kv.2 = c)) =
        x :: l.filter (fun kv => decide (kv.2 = c))
  | [] => by simp [hx]
  | y :: ys => by
    by_cases h : sortKey x y
    · simp [List.orderedInsert, h, List.filter_cons, hx]
    · have hxy : x.2 < y.2 := Nat.lt_of_not_le h
      have hy : ¬y.2 = c := by omega
      simp [List.orderedInsert, h, List.filter_cons, hy,
        filter_orderedInsert_of_eq c x hx ys]

theorem filter_orderedInsert_of_ne (c : Nat) (x : String × Nat) (hx : ¬x.2 = c) :
    ∀ l : List (String × Nat),
      (List.orderedInsert sortKey x l).filter (fun kv => decide (kv.2 = c)) =
        l.filter (fun kv => decide (kv.2 = c))
  | [] => by simp [hx]
  | y :: ys => by
    by_cases h : sortKey x y
    · simp [List.orderedInsert, h, List.filter_cons, hx]
    · simp [List.orderedInsert, h, List.filter_cons,
        filter_orderedInsert_of_ne c x hx ys]

theorem filter_insertionSort (c : Nat) :
    ∀ l : List (String × Nat),
      (List.insertionSort sortKey l).filter (fun kv => decide (kv.2 = c)) =
        l.filter (fun kv => decide (kv.2 = c))
  | [] => rfl
  | a :: l => by
    have e : List.insertionSort sortKey (a :: l) =
        List.orderedInsert sortKey a (List.insertionSort sortKey l) := rfl
    by_cases h : a.2 = c
    · rw [e, filter_orderedInsert_of_eq c a h, filter_insertionSort c l]
      simp [List.filter_cons, h]
    · rw [e, filter_orderedInsert_of_ne c a h, filter_insertionSort c l]
      simp [List.filter_cons, h]

theorem filter_map_fst (c : Nat) :
    ∀ (l : List (String × Nat)) (f : String → Nat), (∀ kv ∈ l, kv.2 = f kv.1) →
      (l.filter (fun kv => decide (kv.2 = c))).map Prod.fst =
        (l.map Prod.fst).filter (fun w => decide (f w = c))
  | [], _, _ => rfl
  | kv :: rest, f, h => by
    have h1 : kv.2 = f kv.1 := h kv (List.mem_cons_self _ _)
    have ih := filter_map_fst c rest f (fun q hq => h q (List.mem_cons_of_mem _ hq))
    by_cases hc : kv.2 = c
    · have hfc : f kv.1 = c := h1.symm.trans hc
      simp [List.filter_cons, hc, hfc, ih]
    · have hfc : ¬f kv.1 = c := fun hcc => hc (h1.trans hcc)
      simp [List.filter_cons, hc, hfc, ih]

theorem map_fst_foldl (ws : List String) (acc : List (String × Nat)) :
    (ws.foldl bump acc).map Prod.fst =
      ws.foldl (fun ks w => if w ∈ ks then ks else ks ++ [w]) (acc.map Prod.fst) := by
  induction ws generalizing acc with
  | nil => rfl
  | cons w ws ih => rw [List.foldl_cons, ih, map_fst_bump, List.foldl_cons]

/-! ### Facts about `counts` and `pairs` shared by several claims -/

theorem pairs_perm_counts (lines : List String) :
    List.Perm (pairs lines) (counts lines) :=
  List.perm_insertionSort sortKey (counts lines)

theorem counts_keys_nodup (lines : List String) : ((counts lines).map Prod.fst).Nodup := by
  rw [counts_eq_foldl]
  exact nodup_keys_foldl _ [] (by simp)

theorem pairs_keys_nodup (lines : List String) : ((pairs lines).map Prod.fst).Nodup :=
  ((pairs_perm_counts lines).map Prod.fst).nodup_iff.mpr (counts_keys_nodup lines)

theorem lookupCount_counts (lines : List String) (w : String) :
    lookupCount (counts lines) w = (tokens lines).count w := by
  rw [counts_eq_foldl, lookupCount_foldl]
  simp [lookupCount]

theorem mem_keys_pairs (lines : List String) (w : String) :
    w ∈ (pairs lines).map Prod.fst ↔ w ∈ tokens lines := by
  rw [((pairs_perm_counts lines).map Prod.fst).mem_iff, counts_eq_foldl]
  simpa using mem_keys_foldl (tokens lines) [] w

theorem mem_counts_count (lines : List String) {w : String} {c : Nat}
    (h : (w, c) ∈ counts lines) : c = (tokens lines).count w :=
  (lookupCount_of_mem (counts_keys_nodup lines) h).trans (lookupCount_counts lines w)

/-! ### The claims -/

/-- C1: for every input text and every emitted pair, the count printed next to a
word equals the number of occurrences of that exact lowercase token across all
input lines, where tokens come from lowercasing each line and splitting on runs
of whitespace, discarding empty fragments. -/
theorem count_correct (input : String) (w : String) (c : Nat)
    (h : (w, c) ∈ pairs (pyLines input)) :
    c = (tokens (pyLines input)).count w :=
  mem_counts_count (pyLines input) ((pairs_perm_counts (pyLines input)).mem_iff.mp h)

theorem count_correct_witness :
    (("a", 3) ∈ pairs (pyLines "a b a\nA c b\n")) ∧
      3 = (tokens (pyLines "a b a\nA c b\n")).count "a" :=
  ⟨by decide, count_correct "a b a\nA c b\n" "a" 3 (by decide)⟩

/-- C2: the emitted pairs are sorted by count in descending order: for any two
consecutive emitted lines, the count of the first is at least the count of the
second. -/
theorem sorted_by_count_desc (input : String) (i : Nat) (a b : String × Nat)
    (ha : (pairs (pyLines input)).get? i = some a)
    (hb : (pairs (pyLines input)).get? (i + 1) = some b) :
    b.2 ≤ a.2 := by
  have hs : List.Sorted sortKey (pairs (pyLines input)) :=
    List.sorted_insertionSort sortKey (counts (pyLines input))
  have hp := List.pairwise_iff_get.mp hs
  obtain ⟨hia, ha'⟩ := List.get?_eq_some.mp ha
  obtain ⟨hib, hb'⟩ := List.get?_eq_some.mp hb
  have hr := hp ⟨i, hia⟩ ⟨i + 1, hib⟩ (Nat.lt_succ_self i)
  rw [ha', hb'] at hr
  exact hr

theorem sorted_by_count_desc_witness :
    ((pairs (pyLines "a b a\nA c b\n")).get? 0 = some ("a", 3)) ∧
      ((pairs (pyLines "a b a\nA c b\n")).get? 1 = some ("b", 2)) ∧ (2 : Nat) ≤ 3 :=
  ⟨rfl, rfl, sorted_by_count_desc "a b a\nA c b\n" 0 ("a", 3) ("b", 2) rfl rfl⟩

/-- C3: the sum of all emitted counts equals the total number of
whitespace-delimited tokens (after lowercasing) in the input, and the same sum
equality holds of the frequency table after processing any prefix of the token
stream. -/
theorem sum_counts_eq_total (input : String) :
    ((pairs (pyLines input)).map Prod.snd).sum = (tokens (pyLines input)).length ∧
      ∀ n : Nat,
        ((((tokens (pyLines input)).take n).foldl bump []).map Prod.snd).sum =
          ((tokens (pyLines input)).take n).length := by
  constructor
  · rw [((pairs_perm_counts (pyLines input)).map Prod.snd).sum_eq, counts_eq_foldl,
      sum_snd_foldl]
    simp
  · intro n
    rw [sum_snd_foldl]
    simp

/-- C4: the set of emitted words equals the set of distinct lowercase tokens
present in the input. -/
theorem emitted_words_eq_distinct_tokens (input : String) (w : String) :
    w ∈ (pairs (pyLines input)).map Prod.fst ↔ w ∈ tokens (pyLines input) :=
  mem_keys_pairs (pyLines input) w

/-- C5: the program writes exactly one output line per distinct word (the words
of the emitted pairs are distinct and are exactly the distinct tokens), and each
line is the word, a single space, and the count, in that order; the output list
contains nothing else. -/
theorem output_line_format (input : String) :
    outputLines (pyLines input) =
        (pairs (pyLines input)).map (fun kv => kv.1 ++ " " ++ toString kv.2) ∧
      ((pairs (pyLines input)).map Prod.fst).Nodup ∧
      ∀ w, w ∈ (pairs (pyLines input)).map Prod.fst ↔ w ∈ tokens (pyLines input) :=
  ⟨rfl, pairs_keys_nodup (pyLines input), fun w => mem_keys_pairs (pyLines input) w⟩

/-- C6: on the input `"a b a\nA c b\n"` the lowercased token sequence is
a, b, a, a, c, b, the resulting counts are a:3, b:2, c:1, and the emitted output
is the three lines `a 3`, `b 2`, `c 1` in that order. -/
theorem example_run :
    tokens (pyLines "a b a\nA c b\n") = ["a", "b", "a", "a", "c", "b"] ∧
      counts (pyLines "a b a\nA c b\n") = [("a", 3), ("b", 2), ("c", 1)] ∧
      runProgram "a b a\nA c b\n" = ["a 3", "b 2", "c 1"] :=
  ⟨rfl, rfl, rfl⟩

/-- C7: for the empty input the program produces empty output: no lines are
emitted. -/
theorem empty_input_empty_output : runProgram "" = [] := rfl

/-- C8: running the program twice on the same input produces the same multiset
of (word, count) pairs. -/
theorem two_runs_same_multiset (input : String) (p₁ p₂ : List (String × Nat))
    (h₁ : p₁ = pairs (pyLines input)) (h₂ : p₂ = pairs (pyLines input)) :
    (p₁ : Multiset (String × Nat)) = (p₂ : Multiset (String × Nat)) := by
  rw [h₁, h₂]

theorem two_runs_same_multiset_witness :
    (pairs (pyLines "a b a\nA c b\n") = pairs (pyLines "a b a\nA c b\n")) ∧
      ((pairs (pyLines "a b a\nA c b\n") : Multiset (String × Nat)) =
        (pairs (pyLines "a b a\nA c b\n") : Multiset (String × Nat))) :=
  ⟨rfl, two_runs_same_multiset "a b a\nA c b\n" _ _ rfl rfl⟩

/-- C9: words with equal counts are emitted in the order of their first
occurrence in the lowercased token stream: for every count `c`, the words
emitted with count `c`, in emission order, are exactly the words of the
first-occurrence-ordered distinct token list whose count is `c` — the table
preserves insertion order and the sort by count is stable, so the output order
is fully determined by the input. -/
theorem tie_break_first_occurrence (input : String) (c : Nat) :
    ((pairs (pyLines input)).filter (fun kv => decide (kv.2 = c))).map Prod.fst =
      (firstSeen (tokens (pyLines input))).filter
        (fun w => decide ((tokens (pyLines input)).count w = c)) := by
  have h2 : ∀ kv ∈ counts (pyLines input), kv.2 = (tokens (pyLines input)).count kv.1 :=
    fun kv hkv => mem_counts_count (pyLines input) hkv
  have h3 := filter_map_fst c (counts (pyLines input))
    (fun w => (tokens (pyLines input)).count w) h2
  have h4 : (counts (pyLines input)).map Prod.fst = firstSeen (tokens (pyLines input)) := by
    rw [counts_eq_foldl, map_fst_foldl]
    rfl
  unfold pairs
  rw [filter_insertionSort c (counts (pyLines input)), h3, h4]

/-- C10: every emitted count is at least 1 and every emitted word occurs in the
lowercased token stream; moreover every value stored in the frequency table is
positive after any sequence of updates. -/
theorem table_counts_positive (input : String) :
    (∀ kv : String × Nat, kv ∈ pairs (pyLines input) →
        1 ≤ kv.2 ∧ kv.1 ∈ tokens (pyLines input)) ∧
      ∀ (ts : List String) (kv : String × Nat), kv ∈ ts.foldl bump [] → 1 ≤ kv.2 := by
  constructor
  · intro kv hkv
    have hc : kv ∈ counts (pyLines input) := (pairs_perm_counts (pyLines input)).mem_iff.mp hkv
    constructor
    · rw [counts_eq_foldl] at hc
      exact pos_of_mem_foldl _ [] (by simp) kv hc
    · have hm : kv.1 ∈ (counts (pyLines input)).map Prod.fst :=
        List.mem_map_of_mem Prod.fst hc
      rw [counts_eq_foldl] at hm
      exact (by simpa using mem_keys_foldl (tokens (pyLines input)) [] kv.1 :
        kv.1 ∈ ((tokens (pyLines input)).foldl bump []).map Prod.fst ↔
          kv.1 ∈ tokens (pyLines input)).mp hm
  · intro ts kv hkv
    exact pos_of_mem_foldl ts [] (by simp) kv hkv

theorem table_counts_positive_witness :
    (("a", 3) ∈ pairs (pyLines "a b a\nA c b\n") ∧
        (1 ≤ 3 ∧ "a" ∈ tokens (pyLines "a b a\nA c b\n"))) ∧
      (("x", 1) ∈ (["x"] : List String).foldl bump [] ∧ 1 ≤ 1) :=
  ⟨⟨by decide, (table_counts_positive "a b a\nA c b\n").1 ("a", 3) (by decide)⟩,
    ⟨by decide, (table_counts_positive "a b a\nA c b\n").2 ["x"] ("x", 1) (by decide)⟩⟩

end WordCount
